import Mathlib

/-!
# A verification development for the `git-rs` object store

This file gives a shallow embedding, in Lean 4, of the core of the
`git-rs` repository (a miniature content-addressable object store in
the style of git's object database) and proves the central properties
of its specification against that embedding.

Byte strings are modelled as `List Nat` (each element a byte value);
Rust's `usize` arithmetic is modelled by `Nat` (the quantities involved
are list lengths, far below any overflow boundary).  Fallible Rust code
(`Result`, nom parsers) is modelled with `Option` / `Except`, and the
panicking `unwrap` calls of `Hash::from_str` are modelled by an explicit
`panicked` outcome so that their unreachability can be proved.

Embedded source locations:
* `src/hash.rs`   — `Hash`, `Hash::from_bytes` (SHA-1), `FromStr`, `Display`
* `src/object.rs` — `Blob`, `Tree`, `Object`, the `Writeable` encoders,
  the `TryFrom<&[u8]>` decoders, `Tree::write_tree`
* `src/main.rs`   — `IoErrorExt::ignore`, `HashObject::write`
-/

/-- Byte strings: each element is one byte value. -/
abbrev Bytes := List Nat

/-- ASCII bytes of a Lean string (used for the literal tags `"blob "`,
`"tree "` written by the Rust encoders, which are all ASCII). -/
def asciiBytes (s : String) : Bytes := s.toList.map Char.toNat

/-- Little-endian base-`b` digits of `n`, computed with explicit fuel so
that the kernel can evaluate it; `digitsFuel_eq_digits` identifies it with
Mathlib's `Nat.digits`. -/
def digitsFuel (b : Nat) : Nat → Nat → List Nat
  | _, 0 => []
  | 0, _ + 1 => []
  | fuel + 1, n + 1 => (n + 1) % b :: digitsFuel b fuel ((n + 1) / b)

/-- Little-endian base-`b` digits of `n` (`n` itself is enough fuel). -/
def natDigits (b n : Nat) : List Nat := digitsFuel b n n

theorem digitsFuel_eq_digits (b : Nat) (hb : 2 ≤ b) :
    ∀ fuel n, n ≤ fuel → digitsFuel b fuel n = Nat.digits b n := by
  intro fuel
  induction fuel with
  | zero =>
      intro n hn
      interval_cases n
      simp [digitsFuel]
  | succ f ih =>
      intro n hn
      match n with
      | 0 => simp [digitsFuel]
      | m + 1 =>
          have hdiv : (m + 1) / b ≤ f := by
            have : (m + 1) / b < m + 1 := Nat.div_lt_self (Nat.succ_pos m) (by omega)
            omega
          rw [digitsFuel, ih _ hdiv, ← Nat.digits_def' (by omega : 1 < b) (Nat.succ_pos m)]

theorem natDigits_eq_digits (b n : Nat) (hb : 2 ≤ b) :
    natDigits b n = Nat.digits b n :=
  digitsFuel_eq_digits b hb n n le_rfl

/-- Decimal rendering of a nonnegative integer, as ASCII bytes, exactly as
Rust's `write!(f, "{}", n)` renders a `usize`: most significant digit first,
no leading zeros, `"0"` for zero. -/
def decimalBytes (n : Nat) : Bytes :=
  if n = 0 then [48] else (natDigits 10 n).reverse.map (· + 48)

/-- Octal rendering of a nonnegative integer, as ASCII bytes, exactly as
Rust's `write!(f, "{:o}", n)` renders a `u32`. -/
def octalBytes (n : Nat) : Bytes :=
  if n = 0 then [48] else (natDigits 8 n).reverse.map (· + 48)

/-- The binary bit length of `n`, with explicit fuel, so the kernel can
evaluate it.  For a `u32` value `v`, `u32::BITS - v.leading_zeros()` is
exactly this bit length. -/
def bitLenFuel : Nat → Nat → Nat
  | _, 0 => 0
  | 0, _ + 1 => 0
  | fuel + 1, n + 1 => bitLenFuel fuel ((n + 1) / 2) + 1

/-- The binary bit length of `n` (`n` itself is enough fuel). -/
def natBitLen (n : Nat) : Nat := bitLenFuel n n

/-- `b` is an ASCII decimal digit (accepted by nom's `digit1`). -/
def isDigitByte (b : Nat) : Bool := 48 ≤ b && b ≤ 57

/-- `b` is an ASCII octal digit (accepted by nom's `oct_digit1`). -/
def isOctDigitByte (b : Nat) : Bool := 48 ≤ b && b ≤ 55

/-- `str::parse::<usize>` on a digit string (big-endian fold), as used via
nom's `ParseTo`.  Overflow of `usize` cannot occur for the digit strings the
programs produce, so the value is modelled as a plain `Nat`. -/
def parseToNat (ds : Bytes) : Nat := ds.foldl (fun acc d => acc * 10 + (d - 48)) 0

/-- The fold in `parse_perm` of `src/object.rs`: octal digits, big-endian. -/
def parsePermFold (ds : Bytes) : Nat := ds.foldl (fun acc d => acc * 8 + (d - 48)) 0

/-- nom's `tag`: strip an expected byte-string prefix, returning the rest. -/
def tagP : Bytes → Bytes → Option Bytes
  | [], s => some s
  | _ :: _, [] => none
  | t :: ts, c :: cs => if c = t then tagP ts cs else none

/-- nom's `digit1`: the maximal nonempty run of leading decimal digits,
together with the remaining input. -/
def digit1 (s : Bytes) : Option (Bytes × Bytes) :=
  let ds := s.takeWhile isDigitByte
  if ds.isEmpty then none else some (ds, s.dropWhile isDigitByte)

/-- nom's `oct_digit1`: the maximal nonempty run of leading octal digits. -/
def octDigit1 (s : Bytes) : Option (Bytes × Bytes) :=
  let ds := s.takeWhile isOctDigitByte
  if ds.isEmpty then none else some (ds, s.dropWhile isOctDigitByte)

/-- nom's `take(n)`: the first `n` bytes and the rest, failing if fewer
than `n` bytes remain. -/
def takeP (n : Nat) (s : Bytes) : Option (Bytes × Bytes) :=
  if n ≤ s.length then some (s.take n, s.drop n) else none

/-- nom's `take_until("\0")`: everything strictly before the first NUL
byte (the NUL itself is left in the input), failing if there is none. -/
def takeUntilNul (s : Bytes) : Option (Bytes × Bytes) :=
  if (0 : Nat) ∈ s then some (s.takeWhile (· ≠ 0), s.dropWhile (· ≠ 0)) else none

/-! ## Basic parsing lemmas -/

theorem tagP_append (t r : Bytes) : tagP t (t ++ r) = some r := by
  induction t with
  | nil => rfl
  | cons c cs ih => simp [tagP, ih]

theorem takeWhile_append_of_neg {p : Nat → Bool} {a : Bytes} (c : Nat) (r : Bytes)
    (ha : ∀ x ∈ a, p x = true) (hc : p c = false) :
    (a ++ c :: r).takeWhile p = a := by
  induction a with
  | nil => simp [List.takeWhile, hc]
  | cons x xs ih =>
      have hx : p x = true := ha x (by simp)
      simp only [List.cons_append, List.takeWhile, hx]
      simp [ih fun y hy => ha y (by simp [hy])]

theorem dropWhile_append_of_neg {p : Nat → Bool} {a : Bytes} (c : Nat) (r : Bytes)
    (ha : ∀ x ∈ a, p x = true) (hc : p c = false) :
    (a ++ c :: r).dropWhile p = c :: r := by
  induction a with
  | nil => simp [List.dropWhile, hc]
  | cons x xs ih =>
      have hx : p x = true := ha x (by simp)
      simp only [List.cons_append, List.dropWhile, hx]
      exact ih fun y hy => ha y (by simp [hy])

theorem digit1_append (a : Bytes) (c : Nat) (r : Bytes)
    (ha : ∀ x ∈ a, isDigitByte x = true) (hne : a ≠ []) (hc : isDigitByte c = false) :
    digit1 (a ++ c :: r) = some (a, c :: r) := by
  unfold digit1
  rw [takeWhile_append_of_neg c r ha hc, dropWhile_append_of_neg c r ha hc]
  simp [List.isEmpty_iff, hne]

theorem octDigit1_append (a : Bytes) (c : Nat) (r : Bytes)
    (ha : ∀ x ∈ a, isOctDigitByte x = true) (hne : a ≠ []) (hc : isOctDigitByte c = false) :
    octDigit1 (a ++ c :: r) = some (a, c :: r) := by
  unfold octDigit1
  rw [takeWhile_append_of_neg c r ha hc, dropWhile_append_of_neg c r ha hc]
  simp [List.isEmpty_iff, hne]

theorem takeP_append (a r : Bytes) : takeP a.length (a ++ r) = some (a, r) := by
  unfold takeP
  simp

theorem takeUntilNul_append (a : Bytes) (r : Bytes) (ha : ∀ x ∈ a, x ≠ 0) :
    takeUntilNul (a ++ 0 :: r) = some (a, 0 :: r) := by
  have ha' : ∀ x ∈ a, (decide (x ≠ 0)) = true := fun x hx => by
    simp [ha x hx]
  unfold takeUntilNul
  rw [takeWhile_append_of_neg 0 r ha' (by simp),
      dropWhile_append_of_neg 0 r ha' (by simp)]
  simp

/-! ## Decimal rendering round-trips -/

theorem decimalBytes_digits (n : Nat) : ∀ x ∈ decimalBytes n, isDigitByte x = true := by
  intro x hx
  unfold decimalBytes at hx
  by_cases h : n = 0
  · simp [h] at hx
    simp [hx, isDigitByte]
  · rw [natDigits_eq_digits 10 n (by norm_num)] at hx
    simp [h] at hx
    obtain ⟨d, hd, rfl⟩ := hx
    have : d < 10 := Nat.digits_lt_base (by norm_num) hd
    simp [isDigitByte]
    omega

theorem decimalBytes_ne_nil (n : Nat) : decimalBytes n ≠ [] := by
  unfold decimalBytes
  by_cases h : n = 0
  · simp [h]
  · rw [natDigits_eq_digits 10 n (by norm_num)]
    simp [h, Nat.digits_ne_nil_iff_ne_zero]

theorem foldl_reverse_digits (b : Nat) (L : List Nat) (a : Nat) :
    L.reverse.foldl (fun acc d => acc * b + d) a =
      a * b ^ L.length + Nat.ofDigits b L := by
  induction L generalizing a with
  | nil => simp [Nat.ofDigits]
  | cons d ds ih =>
      simp only [List.reverse_cons, List.foldl_append, List.foldl_cons, List.foldl_nil,
        Nat.ofDigits_cons, List.length_cons]
      rw [ih]
      ring

theorem parseToNat_decimalBytes (n : Nat) : parseToNat (decimalBytes n) = n := by
  unfold parseToNat decimalBytes
  by_cases h : n = 0
  · simp [h]
  · rw [natDigits_eq_digits 10 n (by norm_num)]
    simp only [h, if_false]
    have hfun : ∀ (L : List Nat) (a : Nat),
        (L.map (· + 48)).foldl (fun acc d => acc * 10 + (d - 48)) a =
          L.foldl (fun acc d => acc * 10 + d) a := by
      intro L
      induction L with
      | nil => intro a; rfl
      | cons x xs ih =>
          intro a
          simp only [List.map_cons, List.foldl_cons, Nat.add_sub_cancel]
          exact ih _
    rw [hfun, foldl_reverse_digits]
    simp [Nat.ofDigits_digits]

namespace GitRs

/-! ## The object model (`src/object.rs`) -/

/-- `Blob` of `src/object.rs`: an opaque byte payload. -/
structure Blob where
  content : Bytes
deriving DecidableEq, Repr

/-- The four permission codes of `src/object.rs`
(`REGULAR_FILE = 0o100644`, `EXECUTABLE_FILE = 0o100755`,
`SYMBOLIC_LINK = 0o120000`, `DIRECTORY = 0o040000`). -/
def REGULAR_FILE : Nat := 0o100644
def EXECUTABLE_FILE : Nat := 0o100755
def SYMBOLIC_LINK : Nat := 0o120000
def DIRECTORY : Nat := 0o040000

/-- The `Perms` enum of `src/object.rs`. -/
inductive Perms where
  | regularFile
  | executableFile
  | symbolicLink
  | directory
deriving DecidableEq, Repr

/-- The numeric value of a `Perms` variant (its `#[repr(u32)]` value). -/
def Perms.toNat : Perms → Nat
  | .regularFile => REGULAR_FILE
  | .executableFile => EXECUTABLE_FILE
  | .symbolicLink => SYMBOLIC_LINK
  | .directory => DIRECTORY

/-- `Perms::rendered_size` of `src/object.rs`:
`(u32::BITS - me.leading_zeros() + 2) / 3`.  For a `u32` value,
`u32::BITS - leading_zeros` is the binary bit length `natBitLen`. -/
def Perms.renderedSize (p : Perms) : Nat := (natBitLen p.toNat + 2) / 3

/-- `TreeEntry` of `src/object.rs`.  The `name` is the raw byte string of
the `OsString`; the `hash` is the raw 20-byte buffer `Hash.buf`. -/
structure TreeEntry where
  perms : Perms
  name : Bytes
  hash : Bytes
deriving DecidableEq, Repr

/-- `Tree` of `src/object.rs`: an ordered sequence of entries. -/
structure Tree where
  entries : List TreeEntry
deriving DecidableEq, Repr

/-- `Object` of `src/object.rs`: the tagged union of the two live kinds. -/
inductive Object where
  | blob (b : Blob)
  | tree (t : Tree)
deriving DecidableEq, Repr

/-! ## The `Writeable` encoders (canonical encoding) -/

/-- `impl Writeable for Blob`: `write!(f, "blob {}\0", content.len())`
followed by the raw content bytes. -/
def Blob.fmt (b : Blob) : Bytes :=
  asciiBytes "blob " ++ decimalBytes b.content.length ++ [0] ++ b.content

/-- The body bytes one `TreeEntry` contributes in `impl Writeable for Tree`:
`write!(f, "{:o} ", perms)`, the raw name bytes, a NUL, the raw 20-byte hash. -/
def TreeEntry.fmt (e : TreeEntry) : Bytes :=
  octalBytes e.perms.toNat ++ [32] ++ e.name ++ [0] ++ e.hash

/-- The declared size computed in `impl Writeable for Tree`:
`perms.rendered_size() + 1 + name.len() + 1 + 20`, summed over entries. -/
def Tree.declaredSize (t : Tree) : Nat :=
  (t.entries.map fun e => e.perms.renderedSize + 1 + e.name.length + 1 + 20).sum

/-- `impl Writeable for Tree`: `write!(f, "tree {size}\0")` followed by the
entry encodings in order. -/
def Tree.fmt (t : Tree) : Bytes :=
  asciiBytes "tree " ++ decimalBytes t.declaredSize ++ [0] ++
    (t.entries.map TreeEntry.fmt).flatten

/-- `impl Writeable for Object`: dispatch on the variant. -/
def Object.fmt : Object → Bytes
  | .blob b => b.fmt
  | .tree t => t.fmt

/-! ## The `TryFrom<&[u8]>` decoders -/

/-- `ParseError` of `src/object.rs`. -/
inductive ParseError where
  | FormatError
  | LengthMismatch
deriving DecidableEq, Repr

/-- The nom parser inside `impl TryFrom<&[u8]> for Blob`: tag `"blob "`,
`digit1`, tag `"\0"`, `take(len)`; returns `(rest, blob)`. -/
def Blob.rawParse (s : Bytes) : Option (Bytes × Bytes) := do
  let s ← tagP (asciiBytes "blob ") s
  let (len, s) ← digit1 s
  let s ← tagP [0] s
  let n := parseToNat len
  let (blob, rest) ← takeP n s
  pure (rest, blob)

/-- `impl TryFrom<&[u8]> for Blob`: parser failure is `FormatError`;
a nonempty remainder is `LengthMismatch`. -/
def Blob.tryFrom (value : Bytes) : Except ParseError Blob :=
  match Blob.rawParse value with
  | none => .error .FormatError
  | some (rest, blob) =>
      if rest.isEmpty then .ok ⟨blob⟩ else .error .LengthMismatch

/-! ## C3: Blob round-trip -/

theorem decimalBytes_not_nul : isDigitByte 0 = false := by decide

theorem Blob.rawParse_fmt (b : Blob) : Blob.rawParse b.fmt = some ([], b.content) := by
  unfold Blob.fmt Blob.rawParse
  rw [List.append_assoc, List.append_assoc, tagP_append]
  have h1 : digit1 (decimalBytes b.content.length ++ ([0] ++ b.content)) =
      some (decimalBytes b.content.length, 0 :: b.content) := by
    simpa using digit1_append (decimalBytes b.content.length) 0 b.content
      (decimalBytes_digits _) (decimalBytes_ne_nil _) (by decide)
  simp only [h1, Option.bind_eq_bind, Option.some_bind]
  have h2 : tagP [0] (0 :: b.content) = some b.content := tagP_append [0] b.content
  simp only [h2, Option.some_bind, parseToNat_decimalBytes]
  have h3 : takeP b.content.length (b.content ++ []) = some (b.content, []) :=
    takeP_append b.content []
  rw [List.append_nil] at h3
  simp [h3]

/-- C3: for all byte strings `b`, decoding the canonical encoding of
`Blob(b)` succeeds and yields `Blob(b)` back — the round-trip over the
`Writeable` encoder and the `TryFrom<&[u8]>` decoder. -/
theorem C3_blob_decode_encode_roundtrip (b : Bytes) :
    Blob.tryFrom (Blob.fmt ⟨b⟩) = .ok ⟨b⟩ := by
  unfold Blob.tryFrom
  rw [Blob.rawParse_fmt ⟨b⟩]
  rfl

/-! ## The Tree decoder (`impl TryFrom<&[u8]> for Tree`) -/

/-- `parse_perm` of `src/object.rs`: reject a run of more than 10 octal
digits, otherwise fold them big-endian, base 8. -/
def parsePerm (perm : Bytes) : Option Nat :=
  if perm.length > 10 then none else some (parsePermFold perm)

/-- The `if`-chain in `entry` selecting a `Perms` variant from the parsed
permission value; an unrecognized value is an error. -/
def permsOfCode (perm : Nat) : Option Perms :=
  if perm = REGULAR_FILE then some .regularFile
  else if perm = EXECUTABLE_FILE then some .executableFile
  else if perm = SYMBOLIC_LINK then some .symbolicLink
  else if perm = DIRECTORY then some .directory
  else none

/-- The nom `entry` parser inside `impl TryFrom<&[u8]> for Tree`.
`Hash::from_raw(hash).unwrap()` cannot panic there: `take(20usize)`
returns exactly 20 bytes and `from_raw` only checks the length, so the
hash is taken to be those 20 bytes directly. -/
def Tree.entryP (s : Bytes) : Option (TreeEntry × Bytes) := do
  let (permDigits, s) ← octDigit1 s
  let s ← tagP [32] s
  let perm ← parsePerm permDigits
  let perms ← permsOfCode perm
  let (name, s) ← takeUntilNul s
  let s ← tagP [0] s
  let (hash, s) ← takeP 20 s
  pure (⟨perms, name, hash⟩, s)

/-- The nom `header` parser inside `impl TryFrom<&[u8]> for Tree`:
tag `"tree "`, `digit1`, parse the length, tag `"\0"`, `take(len)`;
returns `(rest, body)`. -/
def Tree.headerP (s : Bytes) : Option (Bytes × Bytes) := do
  let s ← tagP (asciiBytes "tree ") s
  let (len, s) ← digit1 s
  let n := parseToNat len
  let s ← tagP [0] s
  let (body, rest) ← takeP n s
  pure (rest, body)

/-- The `while !body.is_empty()` entry loop.  The fuel only bounds the
number of iterations; `body.length` is always enough fuel because each
successful `entry` parse consumes at least the permission digit. -/
def Tree.entriesLoop : Nat → Bytes → List TreeEntry → Option (List TreeEntry)
  | _, [], acc => some acc.reverse
  | 0, _ :: _, _ => none
  | fuel + 1, c :: cs, acc =>
      match Tree.entryP (c :: cs) with
      | none => none
      | some (e, s') => Tree.entriesLoop fuel s' (e :: acc)

/-- `impl TryFrom<&[u8]> for Tree`: a header failure is `FormatError`,
a nonempty remainder after the declared body is `LengthMismatch`, and any
entry failure inside the body is `FormatError`. -/
def Tree.tryFrom (s : Bytes) : Except ParseError Tree :=
  match Tree.headerP s with
  | none => .error .FormatError
  | some (rest, body) =>
      if rest.isEmpty then
        match Tree.entriesLoop body.length body [] with
        | none => .error .FormatError
        | some entries => .ok ⟨entries⟩
      else .error .LengthMismatch

/-! ## C4: Tree round-trip -/

theorem perms_octal_facts (p : Perms) :
    (∀ x ∈ octalBytes p.toNat, isOctDigitByte x = true) ∧
    octalBytes p.toNat ≠ [] ∧
    (octalBytes p.toNat).length ≤ 10 ∧
    parsePermFold (octalBytes p.toNat) = p.toNat ∧
    permsOfCode p.toNat = some p ∧
    (octalBytes p.toNat).length = p.renderedSize := by
  cases p <;> decide

theorem TreeEntry.fmt_ne_nil (e : TreeEntry) : e.fmt ≠ [] := by
  unfold TreeEntry.fmt
  have := (perms_octal_facts e.perms).2.1
  intro h
  rcases List.append_eq_nil.mp h with ⟨h1, -⟩
  rcases List.append_eq_nil.mp h1 with ⟨h2, -⟩
  rcases List.append_eq_nil.mp h2 with ⟨h3, -⟩
  rcases List.append_eq_nil.mp h3 with ⟨h4, -⟩
  exact this h4

theorem TreeEntry.fmt_length (e : TreeEntry) (hhash : e.hash.length = 20) :
    e.fmt.length = e.perms.renderedSize + 1 + e.name.length + 1 + 20 := by
  unfold TreeEntry.fmt
  have hsz := (perms_octal_facts e.perms).2.2.2.2.2
  simp [List.length_append, hsz, hhash]
  omega

theorem Tree.entryP_fmt (e : TreeEntry) (hname : ∀ x ∈ e.name, x ≠ 0)
    (hhash : e.hash.length = 20) (rest : Bytes) :
    Tree.entryP (e.fmt ++ rest) = some (e, rest) := by
  obtain ⟨hdig, hne, hlen10, hfold, hcode, -⟩ := perms_octal_facts e.perms
  unfold TreeEntry.fmt Tree.entryP
  have hshape : (octalBytes e.perms.toNat ++ [32] ++ e.name ++ [0] ++ e.hash) ++ rest =
      octalBytes e.perms.toNat ++ 32 :: (e.name ++ 0 :: (e.hash ++ rest)) := by
    simp [List.append_assoc]
  rw [hshape, octDigit1_append _ 32 _ hdig hne (by decide)]
  simp only [Option.bind_eq_bind, Option.some_bind]
  rw [show tagP [32] (32 :: (e.name ++ 0 :: (e.hash ++ rest))) =
        some (e.name ++ 0 :: (e.hash ++ rest)) from tagP_append [32] _]
  simp only [Option.some_bind]
  unfold parsePerm
  rw [if_neg (by omega), hfold]
  simp only [Option.some_bind, hcode]
  rw [takeUntilNul_append e.name _ hname]
  simp only [Option.some_bind]
  rw [show tagP [0] (0 :: (e.hash ++ rest)) = some (e.hash ++ rest) from tagP_append [0] _]
  simp only [Option.some_bind]
  rw [← hhash, takeP_append e.hash rest]
  rfl

theorem Tree.entriesLoop_concat (es : List TreeEntry) :
    ∀ (fuel : Nat) (acc : List TreeEntry),
    (∀ e ∈ es, (∀ x ∈ e.name, x ≠ 0) ∧ e.hash.length = 20) →
    (es.map TreeEntry.fmt).flatten.length ≤ fuel →
    Tree.entriesLoop fuel (es.map TreeEntry.fmt).flatten acc =
      some (acc.reverse ++ es) := by
  induction es with
  | nil =>
      intro fuel acc _ _
      cases fuel <;> simp [Tree.entriesLoop]
  | cons e es ih =>
      intro fuel acc h hfuel
      have he := h e (by simp)
      have hbody : (List.map TreeEntry.fmt (e :: es)).flatten =
          e.fmt ++ (es.map TreeEntry.fmt).flatten := by simp
      rw [hbody] at hfuel ⊢
      have hfl : 1 ≤ e.fmt.length := by
        cases hf : e.fmt with
        | nil => exact absurd hf (TreeEntry.fmt_ne_nil e)
        | cons a l => simp
      have hlen : e.fmt.length + (es.map TreeEntry.fmt).flatten.length ≤ fuel := by
        simpa [List.length_append] using hfuel
      obtain ⟨f, rfl⟩ : ∃ f, fuel = f + 1 := ⟨fuel - 1, by omega⟩
      have hstep : ∃ c cs, e.fmt ++ (es.map TreeEntry.fmt).flatten = c :: cs := by
        cases hf : e.fmt with
        | nil => exact absurd hf (TreeEntry.fmt_ne_nil e)
        | cons a l => exact ⟨a, l ++ (es.map TreeEntry.fmt).flatten, by simp [hf]⟩
      obtain ⟨c, cs, hcc⟩ := hstep
      rw [hcc]
      have hparse : Tree.entryP (c :: cs) = some (e, (es.map TreeEntry.fmt).flatten) := by
        rw [← hcc]
        exact Tree.entryP_fmt e he.1 he.2 _
      rw [Tree.entriesLoop, hparse]
      have := ih f (e :: acc) (fun x hx => h x (by simp [hx])) (by omega)
      change Tree.entriesLoop f (es.map TreeEntry.fmt).flatten (e :: acc) = _
      rw [this]
      simp

theorem Tree.fmt_body_length (t : Tree) (hhash : ∀ e ∈ t.entries, e.hash.length = 20) :
    (t.entries.map TreeEntry.fmt).flatten.length = t.declaredSize := by
  unfold Tree.declaredSize
  rw [List.length_flatten, List.map_map]
  congr 1
  exact List.map_congr_left fun e he => TreeEntry.fmt_length e (hhash e he)

theorem Tree.headerP_fmt (t : Tree) (hhash : ∀ e ∈ t.entries, e.hash.length = 20) :
    Tree.headerP t.fmt = some ([], (t.entries.map TreeEntry.fmt).flatten) := by
  unfold Tree.fmt Tree.headerP
  rw [List.append_assoc, List.append_assoc, tagP_append]
  have h1 : digit1 (decimalBytes t.declaredSize ++
      ([0] ++ (t.entries.map TreeEntry.fmt).flatten)) =
      some (decimalBytes t.declaredSize, 0 :: (t.entries.map TreeEntry.fmt).flatten) := by
    simpa using digit1_append (decimalBytes t.declaredSize) 0 _
      (decimalBytes_digits _) (decimalBytes_ne_nil _) (by decide)
  simp only [h1, Option.bind_eq_bind, Option.some_bind, parseToNat_decimalBytes]
  rw [show tagP [0] (0 :: (t.entries.map TreeEntry.fmt).flatten) =
        some ((t.entries.map TreeEntry.fmt).flatten) from tagP_append [0] _]
  simp only [Option.some_bind]
  have h3 : takeP t.declaredSize ((t.entries.map TreeEntry.fmt).flatten ++ []) =
      some ((t.entries.map TreeEntry.fmt).flatten, []) := by
    rw [← Tree.fmt_body_length t hhash]
    exact takeP_append _ []
  rw [List.append_nil] at h3
  simp [h3]

/-- C4: for every `Tree` whose entries carry one of the four recognized
permission tags (enforced by the `Perms` type), whose names contain no NUL
byte, and whose hashes are the 20-byte buffers of `Hash`, decoding the
canonical encoding succeeds and reproduces exactly the same entries in the
same order. -/
theorem C4_tree_decode_encode_roundtrip (t : Tree)
    (hname : ∀ e ∈ t.entries, ∀ x ∈ e.name, x ≠ 0)
    (hhash : ∀ e ∈ t.entries, e.hash.length = 20) :
    Tree.tryFrom t.fmt = .ok t := by
  unfold Tree.tryFrom
  rw [Tree.headerP_fmt t hhash]
  simp only [List.isEmpty_nil, if_true]
  rw [Tree.entriesLoop_concat t.entries _ []
      (fun e he => ⟨hname e he, hhash e he⟩) le_rfl]
  simp

/-- Witness for C4 at a concrete two-entry tree (a regular file `"a"` and a
directory `"d"`, child hashes 20 zero bytes): the hypotheses hold and the
decode of the encode gives the tree back. -/
theorem C4_witness :
    Tree.tryFrom (Tree.fmt ⟨[⟨.regularFile, [97], List.replicate 20 0⟩,
        ⟨.directory, [100], List.replicate 20 0⟩]⟩) =
      .ok ⟨[⟨.regularFile, [97], List.replicate 20 0⟩,
        ⟨.directory, [100], List.replicate 20 0⟩]⟩ :=
  C4_tree_decode_encode_roundtrip
    ⟨[⟨.regularFile, [97], List.replicate 20 0⟩,
      ⟨.directory, [100], List.replicate 20 0⟩]⟩
    (by decide) (by decide)

/-- Decidable equality for `Except`, for evaluating decoder results on
concrete inputs. -/
instance {ε α : Type} [DecidableEq ε] [DecidableEq α] : DecidableEq (Except ε α) :=
  fun x y =>
    match x, y with
    | .ok a, .ok b => decidable_of_iff (a = b) (by simp)
    | .error a, .error b => decidable_of_iff (a = b) (by simp)
    | .ok _, .error _ => isFalse (by simp)
    | .error _, .ok _ => isFalse (by simp)

/-! ## C8: trailing bytes after the declared body -/

/-- C8: for any input byte sequence — blob or tree — whose header parses
and declares a body length `n`, if bytes remain after consuming `n` body
bytes, decoding fails with `LengthMismatch`.  The header is an arbitrary
nonempty digit string `ds` declaring `n = parseToNat ds`, and the bytes
after the header NUL number more than `n`. -/
theorem C8_trailing_bytes_length_mismatch (ds rest : Bytes) (hne : ds ≠ [])
    (hd : ∀ x ∈ ds, isDigitByte x = true)
    (hlen : parseToNat ds < rest.length) :
    Blob.tryFrom (asciiBytes "blob " ++ ds ++ [0] ++ rest) = .error .LengthMismatch ∧
    Tree.tryFrom (asciiBytes "tree " ++ ds ++ [0] ++ rest) = .error .LengthMismatch := by
  have hshape : ∀ a : Bytes, a ++ ds ++ [0] ++ rest = a ++ (ds ++ 0 :: rest) := by
    intro a
    simp [List.append_assoc]
  have hdig : digit1 (ds ++ 0 :: rest) = some (ds, 0 :: rest) :=
    digit1_append ds 0 rest hd hne (by decide)
  have htag0 : tagP [0] (0 :: rest) = some rest := tagP_append [0] rest
  have htake : takeP (parseToNat ds) rest =
      some (rest.take (parseToNat ds), rest.drop (parseToNat ds)) := by
    unfold takeP
    rw [if_pos (by omega)]
  have hdropne : (rest.drop (parseToNat ds)).isEmpty = false := by
    cases hdd : rest.drop (parseToNat ds) with
    | nil =>
        exfalso
        have := congrArg List.length hdd
        simp [List.length_drop] at this
        omega
    | cons a l => rfl
  constructor
  · unfold Blob.tryFrom Blob.rawParse
    rw [hshape, tagP_append]
    simp only [Option.bind_eq_bind, Option.some_bind, hdig, htag0, htake]
    simp [hdropne]
  · unfold Tree.tryFrom Tree.headerP
    rw [hshape, tagP_append]
    simp only [Option.bind_eq_bind, Option.some_bind, hdig, htag0, htake]
    simp [hdropne]

/-- Witness for C8: with declared length `"1"` and two remaining bytes,
both decoders fail with `LengthMismatch`. -/
theorem C8_witness :
    Blob.tryFrom (asciiBytes "blob " ++ [49] ++ [0] ++ [97, 98]) =
        .error .LengthMismatch ∧
    Tree.tryFrom (asciiBytes "tree " ++ [49] ++ [0] ++ [97, 98]) =
        .error .LengthMismatch :=
  C8_trailing_bytes_length_mismatch [49] [97, 98] (by decide) (by decide) (by decide)

/-! ## C9: unrecognized permission code -/

/-- C9: decoding a tree whose first entry's permission field is not one of
the four recognized codes fails with `FormatError`.  First conjunct: the
concrete non-octal permission text `"999999"` (nom's `oct_digit1` rejects
it outright).  Second conjunct: any nonempty octal-digit permission field
whose value is not one of the four recognized codes. -/
theorem C9_unrecognized_permission_format_error :
    (Tree.tryFrom (asciiBytes "tree 29" ++ [0] ++ asciiBytes "999999 a" ++ [0] ++
        List.replicate 20 0) = .error .FormatError) ∧
    (∀ ds body' : Bytes, ds ≠ [] → (∀ x ∈ ds, isOctDigitByte x = true) →
      permsOfCode (parsePermFold ds) = none →
      Tree.tryFrom (asciiBytes "tree " ++
          decimalBytes (ds.length + 1 + body'.length) ++ [0] ++ ds ++ [32] ++ body') =
        .error .FormatError) := by
  constructor
  · decide
  · intro ds body' hne hoct hcode
    unfold Tree.tryFrom Tree.headerP
    have hshape : asciiBytes "tree " ++
        decimalBytes (ds.length + 1 + body'.length) ++ [0] ++ ds ++ [32] ++ body' =
        asciiBytes "tree " ++
          (decimalBytes (ds.length + 1 + body'.length) ++ 0 :: (ds ++ 32 :: body')) := by
      simp [List.append_assoc]
    have hdig : digit1 (decimalBytes (ds.length + 1 + body'.length) ++
        0 :: (ds ++ 32 :: body')) =
        some (decimalBytes (ds.length + 1 + body'.length), 0 :: (ds ++ 32 :: body')) :=
      digit1_append _ 0 _ (decimalBytes_digits _) (decimalBytes_ne_nil _) (by decide)
    have htag0 : tagP [0] (0 :: (ds ++ 32 :: body')) = some (ds ++ 32 :: body') :=
      tagP_append [0] _
    have hblen : (ds ++ 32 :: body').length = ds.length + 1 + body'.length := by
      simp only [List.length_append, List.length_cons]
      omega
    have htake : takeP (ds.length + 1 + body'.length) (ds ++ 32 :: body') =
        some (ds ++ 32 :: body', []) := by
      have h := takeP_append (ds ++ 32 :: body') []
      rw [List.append_nil, hblen] at h
      exact h
    have hentry : Tree.entryP (ds ++ 32 :: body') = none := by
      unfold Tree.entryP
      rw [octDigit1_append ds 32 body' hoct hne (by decide)]
      simp only [Option.bind_eq_bind, Option.some_bind,
        show tagP [32] (32 :: body') = some body' from tagP_append [32] body']
      unfold parsePerm
      by_cases hl : ds.length > 10
      · rw [if_pos hl]
        rfl
      · rw [if_neg hl]
        simp [hcode]
    rw [hshape, tagP_append]
    simp only [Option.bind_eq_bind, Option.some_bind, hdig, parseToNat_decimalBytes,
      htag0, htake]
    simp only [List.isEmpty_nil, if_true]
    obtain ⟨c, cs, hcc⟩ : ∃ c cs, ds ++ 32 :: body' = c :: cs := by
      cases hds : ds with
      | nil => exact absurd hds hne
      | cons a l => exact ⟨a, l ++ 32 :: body', by simp [hds]⟩
    rw [hcc] at hentry ⊢
    obtain ⟨f, hf⟩ : ∃ f, (c :: cs).length = f + 1 := ⟨cs.length, by simp⟩
    rw [hf, Tree.entriesLoop, hentry]

/-- Witness for C9's quantified conjunct: the octal permission text
`"777777"` (value `0o777777`, not a recognized code) makes tree decoding
fail with `FormatError`. -/
theorem C9_witness :
    Tree.tryFrom (asciiBytes "tree " ++
        decimalBytes (([55, 55, 55, 55, 55, 55] : Bytes).length + 1 +
          ([97] : Bytes).length) ++ [0] ++
        [55, 55, 55, 55, 55, 55] ++ [32] ++ [97]) = .error .FormatError :=
  C9_unrecognized_permission_format_error.2 [55, 55, 55, 55, 55, 55] [97]
    (by decide) (by decide) (by decide)

/-! ## `Hash::from_str` and `Display for Hash` (`src/hash.rs`) -/

/-- `HashError` of `src/hash.rs`. -/
inductive HashError where
  | WrongLength
  | UnexpectedChar (c : Char)
deriving DecidableEq, Repr

/-- The outcome of `Hash::from_str`: `ok`/`err` mirror `Result`, and
`panicked` models the `unwrap()` on a chunk missing its second character
as well as an out-of-bounds `buf[i]` write, so that the unreachability of
both can be proved. -/
inductive FromStrOutcome where
  | ok (buf : Bytes)
  | err (e : HashError)
  | panicked
deriving DecidableEq, Repr

/-- `to_nibble` of `src/hash.rs` (`'0'..='9'` and `'a'..='f'` ranges). -/
def toNibble (ch : Char) : Except HashError Nat :=
  if 48 ≤ ch.toNat ∧ ch.toNat ≤ 57 then .ok (ch.toNat - 48)
  else if 97 ≤ ch.toNat ∧ ch.toNat ≤ 102 then .ok (ch.toNat - 97 + 10)
  else .error (.UnexpectedChar ch)

/-- Rust's `char::len_utf8`: the UTF-8 byte width of one character. -/
def lenUtf8 (c : Char) : Nat :=
  if c.toNat < 0x80 then 1 else if c.toNat < 0x800 then 2
  else if c.toNat < 0x10000 then 3 else 4

/-- Rust's `str::len()` — the UTF-8 byte length of a string, while the
`chars()` iterator walks characters; the distinction matters in
`Hash::from_str`, whose length guard is on bytes. -/
def utf8Len (s : List Char) : Nat := (s.map lenUtf8).sum

/-- The `chars().chunks(2)` loop of `Hash::from_str`.  `i` is the
enumeration index and `buf` the bytes written so far (`buf.length = i`
at every call from the start state).  A two-character chunk reads both
nibbles and then writes `buf[i]` — an out-of-bounds panic when `i ≥ 20`;
a final one-character chunk reads its first nibble and then panics on
`ch.next().unwrap()` for the missing second one.  On normal exit the
remaining cells of `buf = [0; 20]` keep their zeros. -/
def chunkLoop : List Char → Nat → Bytes → FromStrOutcome
  | [], _, buf => .ok (buf ++ List.replicate (20 - buf.length) 0)
  | [c], _, _ =>
      match toNibble c with
      | .error e => .err e
      | .ok _ => .panicked
  | c1 :: c2 :: rest, i, buf =>
      match toNibble c1 with
      | .error e => .err e
      | .ok n1 =>
          match toNibble c2 with
          | .error e => .err e
          | .ok n2 =>
              if i < 20 then chunkLoop rest (i + 1) (buf ++ [n1 <<< 4 ||| n2])
              else .panicked

/-- `impl FromStr for Hash` of `src/hash.rs`: reject any input whose byte
length is not 40, then run the chunk loop. -/
def Hash.fromStr (s : List Char) : FromStrOutcome :=
  if utf8Len s ≠ 40 then .err .WrongLength else chunkLoop s 0 []

/-- One lowercase hex digit (for a value below 16). -/
def hexDigitChar (n : Nat) : Char := Char.ofNat (if n < 10 then 48 + n else 87 + n)

/-- `impl Display for Hash` of `src/hash.rs`: each byte of the 20-byte
buffer as two lowercase zero-padded hex digits (`write!(f, "{b:02x}")`;
a `u8` is below 256, so two digits always suffice). -/
def Hash.display (buf : Bytes) : List Char :=
  buf.flatMap fun b => [hexDigitChar (b / 16), hexDigitChar (b % 16)]

/-- `c` is one of the 16 characters `to_nibble` accepts. -/
def isHexChar (c : Char) : Bool :=
  (48 ≤ c.toNat && c.toNat ≤ 57) || (97 ≤ c.toNat && c.toNat ≤ 102)

/-! ### Hex lemmas -/

theorem toNibble_hexDigitChar : ∀ n : Fin 16, toNibble (hexDigitChar n.val) = .ok n.val := by
  decide

theorem lenUtf8_hexDigitChar : ∀ n : Fin 16, lenUtf8 (hexDigitChar n.val) = 1 := by
  decide

set_option maxRecDepth 4000 in
theorem nibble_recombine : ∀ b : Fin 256, (b.val / 16) <<< 4 ||| (b.val % 16) = b.val := by
  decide

theorem toNibble_ok_ascii (c : Char) (n : Nat) (h : toNibble c = .ok n) :
    lenUtf8 c = 1 := by
  unfold toNibble at h
  unfold lenUtf8
  by_cases h1 : 48 ≤ c.toNat ∧ c.toNat ≤ 57
  · rw [if_pos (by omega)]
  · rw [if_neg h1] at h
    by_cases h2 : 97 ≤ c.toNat ∧ c.toNat ≤ 102
    · rw [if_pos (by omega)]
    · rw [if_neg h2] at h
      exact absurd h (by simp)

theorem toNibble_of_not_hex (c : Char) (h : isHexChar c = false) :
    toNibble c = .error (.UnexpectedChar c) := by
  unfold isHexChar at h
  unfold toNibble
  rw [if_neg, if_neg] <;> simp at h ⊢ <;> omega

theorem toNibble_of_hex (c : Char) (h : isHexChar c = true) :
    ∃ n, toNibble c = .ok n := by
  unfold isHexChar at h
  unfold toNibble
  by_cases h1 : 48 ≤ c.toNat ∧ c.toNat ≤ 57
  · exact ⟨c.toNat - 48, by rw [if_pos h1]⟩
  · refine ⟨c.toNat - 97 + 10, ?_⟩
    rw [if_neg h1, if_pos]
    simp at h h1
    omega

theorem length_le_utf8Len (s : List Char) : s.length ≤ utf8Len s := by
  induction s with
  | nil => simp [utf8Len]
  | cons c cs ih =>
      have : 1 ≤ lenUtf8 c := by
        unfold lenUtf8
        split <;> try omega
        split <;> try omega
        split <;> omega
      simp only [utf8Len, List.map_cons, List.sum_cons, List.length_cons] at ih ⊢
      omega

theorem toNibble_error (c : Char) (e : HashError) (h : toNibble c = .error e) :
    e = .UnexpectedChar c := by
  unfold toNibble at h
  split at h
  · exact absurd h (by simp)
  · split at h
    · exact absurd h (by simp)
    · injection h with h
      exact h.symm

/-! ### Equation lemmas for `chunkLoop` -/

theorem chunkLoop_one_err (c : Char) (i : Nat) (buf : Bytes) (e : HashError)
    (h : toNibble c = .error e) : chunkLoop [c] i buf = .err e := by
  simp [chunkLoop, h]

theorem chunkLoop_one_ok (c : Char) (i : Nat) (buf : Bytes) (v : Nat)
    (h : toNibble c = .ok v) : chunkLoop [c] i buf = .panicked := by
  simp [chunkLoop, h]

theorem chunkLoop_cons2_err1 (c1 c2 : Char) (rest : List Char) (i : Nat) (buf : Bytes)
    (e : HashError) (h1 : toNibble c1 = .error e) :
    chunkLoop (c1 :: c2 :: rest) i buf = .err e := by
  simp [chunkLoop, h1]

theorem chunkLoop_cons2_err2 (c1 c2 : Char) (rest : List Char) (i : Nat) (buf : Bytes)
    (v1 : Nat) (e : HashError) (h1 : toNibble c1 = .ok v1) (h2 : toNibble c2 = .error e) :
    chunkLoop (c1 :: c2 :: rest) i buf = .err e := by
  simp [chunkLoop, h1, h2]

theorem chunkLoop_cons2_ok (c1 c2 : Char) (rest : List Char) (i : Nat) (buf : Bytes)
    (v1 v2 : Nat) (h1 : toNibble c1 = .ok v1) (h2 : toNibble c2 = .ok v2) :
    chunkLoop (c1 :: c2 :: rest) i buf =
      if i < 20 then chunkLoop rest (i + 1) (buf ++ [v1 <<< 4 ||| v2])
      else .panicked := by
  simp [chunkLoop, h1, h2]

theorem chunkLoop_ne_wrongLength :
    ∀ (n : Nat) (l : List Char) (i : Nat) (buf : Bytes), l.length ≤ n →
    chunkLoop l i buf ≠ .err .WrongLength := by
  intro n
  induction n with
  | zero =>
      intro l i buf hl
      have : l = [] := List.length_eq_zero.mp (by omega)
      subst this
      simp [chunkLoop]
  | succ m ih =>
      intro l i buf hl
      match l with
      | [] => simp [chunkLoop]
      | [c] =>
          cases hn : toNibble c with
          | error e =>
              rw [chunkLoop_one_err c i buf e hn]
              have := toNibble_error c e hn
              subst this
              simp
          | ok v => rw [chunkLoop_one_ok c i buf v hn]; simp
      | c1 :: c2 :: rest =>
          cases hn1 : toNibble c1 with
          | error e =>
              rw [chunkLoop_cons2_err1 c1 c2 rest i buf e hn1]
              have := toNibble_error c1 e hn1
              subst this
              simp
          | ok v1 =>
              cases hn2 : toNibble c2 with
              | error e =>
                  rw [chunkLoop_cons2_err2 c1 c2 rest i buf v1 e hn1 hn2]
                  have := toNibble_error c2 e hn2
                  subst this
                  simp
              | ok v2 =>
                  rw [chunkLoop_cons2_ok c1 c2 rest i buf v1 v2 hn1 hn2]
                  by_cases hi : i < 20
                  · rw [if_pos hi]
                    refine ih rest (i + 1) (buf ++ [v1 <<< 4 ||| v2]) ?_
                    simp at hl
                    omega
                  · rw [if_neg hi]
                    simp

theorem chunkLoop_find_not_hex :
    ∀ (n : Nat) (l : List Char) (i : Nat) (buf : Bytes) (c : Char), l.length ≤ n →
    l.length + 2 * i ≤ 40 →
    l.find? (fun x => !isHexChar x) = some c →
    chunkLoop l i buf = .err (.UnexpectedChar c) := by
  intro n
  induction n with
  | zero =>
      intro l i buf c hl _ hfind
      have : l = [] := List.length_eq_zero.mp (by omega)
      subst this
      simp at hfind
  | succ m ih =>
      intro l i buf c hl hbound hfind
      match l with
      | [] => simp at hfind
      | [c0] =>
          rw [List.find?_cons] at hfind
          by_cases h0 : isHexChar c0
          · simp [h0] at hfind
          · simp [h0] at hfind
            subst hfind
            exact chunkLoop_one_err c0 i buf _ (toNibble_of_not_hex c0 (by simp [h0]))
      | c1 :: c2 :: rest =>
          rw [List.find?_cons] at hfind
          by_cases h1 : isHexChar c1
          · simp only [h1, Bool.not_true, List.find?_cons] at hfind
            obtain ⟨v1, hv1⟩ := toNibble_of_hex c1 h1
            by_cases h2 : isHexChar c2
            · simp only [h2, Bool.not_true] at hfind
              obtain ⟨v2, hv2⟩ := toNibble_of_hex c2 h2
              rw [chunkLoop_cons2_ok c1 c2 rest i buf v1 v2 hv1 hv2]
              simp only [List.length_cons] at hl hbound
              rw [if_pos (by omega)]
              refine ih rest (i + 1) (buf ++ [v1 <<< 4 ||| v2]) c (by omega) (by omega) ?_
              simpa using hfind
            · simp only [h2, Bool.not_false] at hfind
              simp at hfind
              subst hfind
              exact chunkLoop_cons2_err2 c1 c2 rest i buf v1 _ hv1
                (toNibble_of_not_hex c2 (by simp [h2]))
          · simp [h1] at hfind
            subst hfind
            exact chunkLoop_cons2_err1 c1 c2 rest i buf _
              (toNibble_of_not_hex c1 (by simp [h1]))

theorem chunkLoop_all_hex :
    ∀ (n : Nat) (l : List Char) (i : Nat) (buf : Bytes), l.length ≤ n →
    l.length % 2 = 0 → l.length + 2 * i ≤ 40 →
    (∀ c ∈ l, isHexChar c = true) →
    ∃ out, chunkLoop l i buf = .ok out := by
  intro n
  induction n with
  | zero =>
      intro l i buf hl _ _ _
      have : l = [] := List.length_eq_zero.mp (by omega)
      subst this
      exact ⟨_, rfl⟩
  | succ m ih =>
      intro l i buf hl heven hbound hhex
      match l with
      | [] => exact ⟨_, rfl⟩
      | [c] => simp at heven
      | c1 :: c2 :: rest =>
          obtain ⟨v1, hv1⟩ := toNibble_of_hex c1 (hhex c1 (by simp))
          obtain ⟨v2, hv2⟩ := toNibble_of_hex c2 (hhex c2 (by simp))
          rw [chunkLoop_cons2_ok c1 c2 rest i buf v1 v2 hv1 hv2]
          simp only [List.length_cons] at hl heven hbound
          rw [if_pos (by omega)]
          refine ih rest (i + 1) (buf ++ [v1 <<< 4 ||| v2])
            (by omega) (by omega) (by omega) ?_
          exact fun x hx => hhex x (by simp [hx])

theorem chunkLoop_no_panic :
    ∀ (n : Nat) (l : List Char) (i : Nat) (buf : Bytes), l.length ≤ n →
    utf8Len l + 2 * i = 40 →
    chunkLoop l i buf ≠ .panicked := by
  intro n
  induction n with
  | zero =>
      intro l i buf hl _
      have : l = [] := List.length_eq_zero.mp (by omega)
      subst this
      simp [chunkLoop]
  | succ m ih =>
      intro l i buf hl hinv
      match l with
      | [] => simp [chunkLoop]
      | [c] =>
          cases hn : toNibble c with
          | error e => rw [chunkLoop_one_err c i buf e hn]; simp
          | ok v =>
              exfalso
              have h1 : lenUtf8 c = 1 := toNibble_ok_ascii c v hn
              have h2 : utf8Len [c] = 1 := by simp [utf8Len, h1]
              rw [h2] at hinv
              omega
      | c1 :: c2 :: rest =>
          cases hn1 : toNibble c1 with
          | error e => rw [chunkLoop_cons2_err1 c1 c2 rest i buf e hn1]; simp
          | ok v1 =>
              cases hn2 : toNibble c2 with
              | error e => rw [chunkLoop_cons2_err2 c1 c2 rest i buf v1 e hn1 hn2]; simp
              | ok v2 =>
                  rw [chunkLoop_cons2_ok c1 c2 rest i buf v1 v2 hn1 hn2]
                  have ha1 : lenUtf8 c1 = 1 := toNibble_ok_ascii c1 v1 hn1
                  have ha2 : lenUtf8 c2 = 1 := toNibble_ok_ascii c2 v2 hn2
                  have hsplit : utf8Len (c1 :: c2 :: rest) = 2 + utf8Len rest := by
                    simp only [utf8Len, List.map_cons, List.sum_cons, ha1, ha2]
                    omega
                  rw [hsplit] at hinv
                  simp only [List.length_cons] at hl
                  rw [if_pos (by omega)]
                  exact ih rest (i + 1) (buf ++ [v1 <<< 4 ||| v2]) (by omega) (by omega)

/-! ## C6, C7, C10: hash text round-trip, parse errors, totality -/

theorem utf8Len_display (h : Bytes) (hb : ∀ b ∈ h, b < 256) :
    utf8Len (Hash.display h) = 2 * h.length := by
  induction h with
  | nil => simp [Hash.display, utf8Len]
  | cons b bs ih =>
      have hblt : b < 256 := hb b (by simp)
      have h1 : lenUtf8 (hexDigitChar (b / 16)) = 1 :=
        lenUtf8_hexDigitChar ⟨b / 16, by omega⟩
      have h2 : lenUtf8 (hexDigitChar (b % 16)) = 1 :=
        lenUtf8_hexDigitChar ⟨b % 16, by omega⟩
      have ih' := ih fun x hx => hb x (by simp [hx])
      simp only [Hash.display, List.flatMap_cons, List.cons_append, List.nil_append,
        utf8Len, List.map_cons, List.sum_cons, List.length_cons, h1, h2] at ih' ⊢
      omega

theorem chunkLoop_display (bytes : Bytes) :
    ∀ (i : Nat) (buf : Bytes), (∀ b ∈ bytes, b < 256) → buf.length = i →
    i + bytes.length ≤ 20 →
    chunkLoop (Hash.display bytes) i buf =
      .ok (buf ++ bytes ++ List.replicate (20 - (i + bytes.length)) 0) := by
  induction bytes with
  | nil =>
      intro i buf _ hbuf hle
      simp [Hash.display, chunkLoop, hbuf]
  | cons b bs ih =>
      intro i buf hlt hbuf hle
      have hblt : b < 256 := hlt b (by simp)
      have hv1 : toNibble (hexDigitChar (b / 16)) = .ok (b / 16) :=
        toNibble_hexDigitChar ⟨b / 16, by omega⟩
      have hv2 : toNibble (hexDigitChar (b % 16)) = .ok (b % 16) :=
        toNibble_hexDigitChar ⟨b % 16, by omega⟩
      have hre : (b / 16) <<< 4 ||| (b % 16) = b := nibble_recombine ⟨b, hblt⟩
      have hshape : Hash.display (b :: bs) =
          hexDigitChar (b / 16) :: hexDigitChar (b % 16) :: Hash.display bs := by
        simp [Hash.display]
      rw [hshape, chunkLoop_cons2_ok _ _ _ i buf _ _ hv1 hv2, hre,
        if_pos (by simp at hle; omega)]
      have := ih (i + 1) (buf ++ [b]) (fun x hx => hlt x (by simp [hx]))
        (by simp [hbuf]) (by simp at hle ⊢; omega)
      rw [this]
      simp only [List.length_cons] at hle ⊢
      rw [List.append_assoc buf [b] bs]
      have : i + 1 + bs.length = i + (bs.length + 1) := by omega
      rw [this]
      rfl

/-- C6: for every 20-byte hash buffer, parsing the 40-character lowercase
hex rendering (`Display`) with `Hash::from_str` yields the buffer back. -/
theorem C6_parse_to_hex_roundtrip (h : Bytes) (hlen : h.length = 20)
    (hb : ∀ b ∈ h, b < 256) :
    Hash.fromStr (Hash.display h) = .ok h := by
  unfold Hash.fromStr
  rw [utf8Len_display h hb, hlen]
  rw [if_neg (by omega)]
  rw [chunkLoop_display h 0 [] hb rfl (by omega)]
  simp [hlen]

/-- Witness for C6 at the all-zero 20-byte buffer. -/
theorem C6_witness :
    Hash.fromStr (Hash.display (List.replicate 20 0)) = .ok (List.replicate 20 0) :=
  C6_parse_to_hex_roundtrip (List.replicate 20 0) (by simp) (by simp)

/-- C7: `Hash::from_str` fails with `WrongLength` exactly when the input's
byte length is not 40; a length-40 input whose first non-hex character is
`c` fails with `UnexpectedChar c`; a length-40 input of only `[0-9a-f]`
characters succeeds. -/
theorem C7_parse_error_classification (s : List Char) :
    ((Hash.fromStr s = .err .WrongLength) ↔ utf8Len s ≠ 40) ∧
    (∀ c : Char, utf8Len s = 40 → s.find? (fun x => !isHexChar x) = some c →
      Hash.fromStr s = .err (.UnexpectedChar c)) ∧
    (utf8Len s = 40 → (∀ c ∈ s, isHexChar c = true) →
      ∃ buf, Hash.fromStr s = .ok buf) := by
  refine ⟨⟨?_, ?_⟩, ?_, ?_⟩
  · intro hres
    intro hcon
    unfold Hash.fromStr at hres
    rw [if_neg (by omega)] at hres
    exact chunkLoop_ne_wrongLength s.length s 0 [] le_rfl hres
  · intro hne
    unfold Hash.fromStr
    rw [if_pos hne]
  · intro c hlen hfind
    unfold Hash.fromStr
    rw [if_neg (by omega)]
    have hsl : s.length ≤ 40 := hlen ▸ length_le_utf8Len s
    exact chunkLoop_find_not_hex s.length s 0 [] c le_rfl (by omega) hfind
  · intro hlen hhex
    unfold Hash.fromStr
    rw [if_neg (by omega)]
    have hascii : ∀ c ∈ s, lenUtf8 c = 1 := by
      intro c hc
      obtain ⟨v, hv⟩ := toNibble_of_hex c (hhex c hc)
      exact toNibble_ok_ascii c v hv
    have hslen : s.length = 40 := by
      have : utf8Len s = s.length := by
        unfold utf8Len
        rw [List.map_congr_left hascii]
        simp [List.map_const]
      omega
    exact chunkLoop_all_hex s.length s 0 [] le_rfl (by omega) (by omega) hhex

/-- Witness for C7: the empty string gives `WrongLength` (via the first
conjunct), and `"zz" ++ 38 zeros` gives `UnexpectedChar 'z'` (via the
second conjunct). -/
theorem C7_witness :
    Hash.fromStr [] = .err .WrongLength ∧
    Hash.fromStr (String.toList "zz" ++ List.replicate 38 (Char.ofNat 48)) =
      .err (.UnexpectedChar (Char.ofNat 122)) := by
  constructor
  · exact (C7_parse_error_classification []).1.mpr (by decide)
  · exact (C7_parse_error_classification _).2.1 (Char.ofNat 122) (by decide) (by decide)

/-- C10: `Hash::from_str` is total — on every input it returns `Ok` or a
`HashError`; in particular the internal chunk `unwrap`s and the `buf[i]`
write are unreachable (the `panicked` outcome of the model never occurs). -/
theorem C10_from_str_never_panics (s : List Char) :
    (∃ buf, Hash.fromStr s = .ok buf) ∨ (∃ e, Hash.fromStr s = .err e) := by
  cases hres : Hash.fromStr s with
  | ok buf => exact Or.inl ⟨buf, rfl⟩
  | err e => exact Or.inr ⟨e, rfl⟩
  | panicked =>
      exfalso
      unfold Hash.fromStr at hres
      by_cases hlen : utf8Len s ≠ 40
      · rw [if_pos hlen] at hres
        exact absurd hres (by simp)
      · rw [if_neg hlen] at hres
        exact chunkLoop_no_panic s.length s 0 [] le_rfl (by omega) hres

/-! ## SHA-1 (`Hash::from_bytes`, the `sha1` crate's digest)

A byte-level SHA-1, written with structural recursion throughout so the
kernel can evaluate it on concrete inputs.  Verified below against the
repository's own test vector (`blob 16\0this is a test!\n` hashes to
`443aa835bd3a231d1332d1dbc72a014ab29ec0b2`). -/

/-- 2^32, the modulus of `u32` arithmetic. -/
def w32mod : Nat := 4294967296

/-- Rotate a 32-bit word left by `s`. -/
def rotl32 (s x : Nat) : Nat := ((x <<< s) ||| (x >>> (32 - s))) % w32mod

/-- Bitwise complement of a 32-bit word. -/
def not32 (x : Nat) : Nat := x ^^^ 4294967295

/-- Big-endian 32-bit words of a byte string (any trailing partial word is
dropped; SHA-1 blocks are always a whole number of words). -/
def toWords : Bytes → List Nat
  | b0 :: b1 :: b2 :: b3 :: rest => (((b0 * 256 + b1) * 256 + b2) * 256 + b3) :: toWords rest
  | _ => []

/-- Split into 64-byte chunks (the fuel only bounds the recursion). -/
def chunksAux : Nat → Bytes → List Bytes
  | _, [] => []
  | 0, _ :: _ => []
  | fuel + 1, a :: l => (a :: l).take 64 :: chunksAux fuel ((a :: l).drop 64)

/-- One message-schedule extension step over the reversed schedule so far:
`w[i] = rotl1 (w[i-3] xor w[i-8] xor w[i-14] xor w[i-16])`. -/
def scheduleStep (w : List Nat) : Nat :=
  rotl32 1 (((w.getD 2 0) ^^^ (w.getD 7 0)) ^^^ ((w.getD 13 0) ^^^ (w.getD 15 0)))

def extendSchedule : Nat → List Nat → List Nat
  | 0, acc => acc
  | k + 1, acc => extendSchedule k (scheduleStep acc :: acc)

/-- The 80-word message schedule of one 64-byte block. -/
def schedule (block : Bytes) : List Nat :=
  (extendSchedule 64 (toWords block).reverse).reverse

/-- The five 32-bit working words `(a, b, c, d, e)`. -/
abbrev Sha1State := Nat × Nat × Nat × Nat × Nat

/-- One SHA-1 round, on the round index and schedule word. -/
def sha1Round (st : Sha1State) (iw : Nat × Nat) : Sha1State :=
  let (a, b, c, d, e) := st
  let (i, wi) := iw
  let fk : Nat × Nat :=
    if i < 20 then ((b &&& c) ||| ((not32 b) &&& d), 1518500249)
    else if i < 40 then ((b ^^^ c) ^^^ d, 1859775393)
    else if i < 60 then (((b &&& c) ||| (b &&& d)) ||| (c &&& d), 2400959708)
    else ((b ^^^ c) ^^^ d, 3395469782)
  let temp := (rotl32 5 a + fk.1 + e + fk.2 + wi) % w32mod
  (temp, a, rotl32 30 b, c, d)

/-- Compress one 64-byte block into the running state. -/
def processBlock (h : Sha1State) (block : Bytes) : Sha1State :=
  let ws := schedule block
  let r := ws.enum.foldl sha1Round h
  (((h.1 + r.1) % w32mod, (h.2.1 + r.2.1) % w32mod, (h.2.2.1 + r.2.2.1) % w32mod,
    (h.2.2.2.1 + r.2.2.2.1) % w32mod, (h.2.2.2.2 + r.2.2.2.2) % w32mod))

/-- The message length in bits, as 8 big-endian bytes. -/
def beBytes8 (n : Nat) : Bytes :=
  [n / 72057594037927936 % 256, n / 281474976710656 % 256, n / 1099511627776 % 256,
   n / 4294967296 % 256, n / 16777216 % 256, n / 65536 % 256, n / 256 % 256, n % 256]

/-- One 32-bit word as 4 big-endian bytes. -/
def wordBytes (w : Nat) : Bytes :=
  [w / 16777216 % 256, w / 65536 % 256, w / 256 % 256, w % 256]

/-- SHA-1 padding: a `0x80` byte, zeros to 56 mod 64, the bit length. -/
def sha1Pad (msg : Bytes) : Bytes :=
  let len := msg.length
  let zeros := (64 - ((len + 9) % 64)) % 64
  msg ++ [128] ++ List.replicate zeros 0 ++ beBytes8 (8 * len)

/-- The SHA-1 digest (20 bytes) of a byte string. -/
def sha1 (msg : Bytes) : Bytes :=
  let padded := sha1Pad msg
  let r := (chunksAux padded.length padded).foldl processBlock
    (1732584193, 4023233417, 2562383102, 271733878, 3285377520)
  wordBytes r.1 ++ wordBytes r.2.1 ++ wordBytes r.2.2.1 ++ wordBytes r.2.2.2.1 ++
    wordBytes r.2.2.2.2

/-- `Hash::from_bytes` of `src/hash.rs`: the SHA-1 digest of the input,
as the 20-byte `buf`. -/
def Hash.fromBytes (b : Bytes) : Bytes := sha1 b

set_option maxRecDepth 100000 in
/-- The repository's own test vector (`tests/tests.rs` / the spec's
scenario): the encoded blob `this is a test!\n` hashes to
`443aa835bd3a231d1332d1dbc72a014ab29ec0b2`. -/
theorem fromBytes_spec_vector :
    Hash.display (Hash.fromBytes (Blob.fmt ⟨asciiBytes "this is a test!\x0a"⟩)) =
      String.toList "443aa835bd3a231d1332d1dbc72a014ab29ec0b2" := by
  decide

/-! ## C1: the hash actually computed vs. the hash of the encoding -/

/-- The UTF-8 bytes Rust writes for `write!(f, "{}", ch as char)` when `ch`
is a `u8`: bytes below `0x80` stay one byte; bytes `0x80..=0xff` become the
two-byte UTF-8 encoding of the code point with that value. -/
def charUtf8 (b : Nat) : Bytes :=
  if b < 128 then [b] else [192 + b / 64, 128 + b % 64]

/-- `impl Display for Blob` of `src/object.rs`: the same header as the
`Writeable` encoder (including `content.len()` as the declared length),
but the body written character-by-character via `ch as char`, so each
byte `≥ 0x80` expands to two UTF-8 bytes in the resulting `String`. -/
def Blob.displayBytes (b : Blob) : Bytes :=
  asciiBytes "blob " ++ decimalBytes b.content.length ++ [0] ++
    b.content.flatMap charUtf8

/-- `Object::hash` of `src/object.rs` for the `Blob` variant:
`Hash::from_bytes(self.to_string().as_bytes())`, where the derived
`Display` of `Object` delegates to `Blob`'s `Display` above.  (For the
`Tree` variant `to_string()` goes through the `TreePrinter` listing, which
is further still from the canonical encoding.) -/
def Object.hashOfBlob (b : Blob) : Bytes := Hash.fromBytes b.displayBytes

/-- The free function `hash` of `src/object.rs` (also
`Hash::from_writable`): SHA-1 of the `Writeable` encoding — this is what
`Tree::write_tree` uses for trees, and what the claim says every stored
hash equals. -/
def hashWriteable (encoded : Bytes) : Bytes := Hash.fromBytes encoded

set_option maxRecDepth 1000000 in
/-- C1 fails on the code: for the blob with the single content byte `0x80`,
`Object::hash` hashes the `Display` string — whose body byte expands to the
two UTF-8 bytes `0xc2 0x80` — so the computed hash differs from
`ContentHash::from_bytes` applied to the canonical `Writeable` encoding.
(For ASCII-only content the two byte strings, and hence the hashes,
coincide, which is why the repository's tests pass.) -/
theorem C1_object_hash_diverges_at_non_ascii_blob :
    Blob.displayBytes ⟨[128]⟩ ≠ Blob.fmt ⟨[128]⟩ ∧
    Object.hashOfBlob ⟨[128]⟩ ≠ Hash.fromBytes (Blob.fmt ⟨[128]⟩) := by
  constructor
  · decide
  · decide

/-! ## `Tree::write_tree` (`src/object.rs`) -/

/-- The classification of one non-directory filesystem entry, as read by
`write_tree` (`path_is_symlink`, then `mode & 0o111`). -/
inductive FileKind where
  | regular
  | executable
  | symlink
deriving DecidableEq, Repr

/-- The `Perms` chosen by `write_tree` for one entry kind. -/
def FileKind.perms : FileKind → Perms
  | .regular => .regularFile
  | .executable => .executableFile
  | .symlink => .symbolicLink

/-- A filesystem subtree.  `write_tree` receives the flat `WalkDir`
listing and groups it by parent directory into a `HashMap`; each
directory's child list (in walk order) is exactly the `children` list of
this inductive tree, which is the structure the recursion `foo` consumes
via `map.get`. -/
inductive FsEntry where
  | file (name : Bytes) (kind : FileKind) (content : Bytes)
  | dir (name : Bytes) (children : List FsEntry)

/-- The body of the recursion `foo` of `write_tree`, applied to one
directory's child list: resolve every child in order (hashing a file's
bytes as a `Blob` via the `Display`-based `Object::hash`, recursing into a
subdirectory first), then build this directory's `Tree`, push it after all
subtrees, and hand back its hash.  Returns `(entries, trees)`: the
`TreeEntry` list of the current directory and every `Tree` pushed while
resolving it.  `none` models the `map.get(current).expect(..)` panic on a
directory that has no children (an empty directory contributes no key to
the map).  `fuel` bounds only the directory nesting depth — a modelling
artifact; every claim is stated on inputs where the call returns. -/
def fooChildren : Nat → List FsEntry → Option (List TreeEntry × List Tree)
  | 0, _ => none
  | fuel + 1, l =>
      l.foldr
        (fun e acc => do
          let (restEntries, restTrees) ← acc
          match e with
          | .file n k content =>
              pure (⟨k.perms, n, Object.hashOfBlob ⟨content⟩⟩ :: restEntries, restTrees)
          | .dir n children =>
              match children with
              | [] => none
              | c :: cs => do
                  let (subEntries, subTrees) ← fooChildren fuel (c :: cs)
                  let tree : Tree := ⟨subEntries⟩
                  pure (⟨.directory, n, hashWriteable tree.fmt⟩ :: restEntries,
                    (subTrees ++ [tree]) ++ restTrees))
        (pure ([], []))

/-- `Tree::write_tree`: resolve the root's child list (the entries whose
parent is the walk root `"."`), push the top-level tree last, then write
every pushed tree — and only trees — to the store, each under the hash of
its canonical encoding (the write loop re-hashes `hash(&tree)` and stores
the zlib-compressed `Writeable` bytes at that hash's object path).
Returns the root hash and the `(hash, encoded bytes)` writes in order.
`none` models the panics (empty root listing or empty subdirectory). -/
def Tree.writeTree (fuel : Nat) (rootChildren : List FsEntry) :
    Option (Bytes × List (Bytes × Bytes)) :=
  match rootChildren with
  | [] => none
  | c :: cs => do
      let (entries, trees) ← fooChildren fuel (c :: cs)
      let root : Tree := ⟨entries⟩
      pure (hashWriteable root.fmt,
        (trees ++ [root]).map fun t => (hashWriteable t.fmt, t.fmt))

/-- The number of directories in a child list, to the same depth bound as
`fooChildren` (the count of `Tree` objects the recursion constructs below
the root). -/
def dirCountF : Nat → List FsEntry → Nat
  | 0, _ => 0
  | fuel + 1, l =>
      l.foldr
        (fun e acc =>
          match e with
          | .file _ _ _ => acc
          | .dir _ children => 1 + dirCountF fuel children + acc)
        0
theorem fooChildren_cons (m : Nat) (e : FsEntry) (rest : List FsEntry) :
    fooChildren (m + 1) (e :: rest) =
      (fooChildren (m + 1) rest).bind (fun pr =>
        match e with
        | .file n k content =>
            some (⟨k.perms, n, Object.hashOfBlob ⟨content⟩⟩ :: pr.1, pr.2)
        | .dir n children =>
            match children with
            | [] => none
            | c :: cs =>
                (fooChildren m (c :: cs)).bind (fun ps =>
                  some (⟨.directory, n, hashWriteable (Tree.fmt ⟨ps.1⟩)⟩ :: pr.1,
                    (ps.2 ++ [⟨ps.1⟩]) ++ pr.2))) := rfl

theorem fooChildren_cons_file (m : Nat) (n : Bytes) (k : FileKind) (content : Bytes)
    (rest : List FsEntry) :
    fooChildren (m + 1) (.file n k content :: rest) =
      (fooChildren (m + 1) rest).bind (fun pr =>
        some (⟨k.perms, n, Object.hashOfBlob ⟨content⟩⟩ :: pr.1, pr.2)) := rfl

theorem fooChildren_cons_dir (m : Nat) (n : Bytes) (c : FsEntry) (cs rest : List FsEntry) :
    fooChildren (m + 1) (.dir n (c :: cs) :: rest) =
      (fooChildren (m + 1) rest).bind (fun pr =>
        (fooChildren m (c :: cs)).bind (fun ps =>
          some (⟨.directory, n, hashWriteable (Tree.fmt ⟨ps.1⟩)⟩ :: pr.1,
            (ps.2 ++ [(⟨ps.1⟩ : Tree)]) ++ pr.2))) := rfl

theorem dirCountF_cons_file (m : Nat) (n : Bytes) (k : FileKind) (content : Bytes)
    (rest : List FsEntry) :
    dirCountF (m + 1) (.file n k content :: rest) = dirCountF (m + 1) rest := rfl

theorem dirCountF_cons_dir (m : Nat) (n : Bytes) (children rest : List FsEntry) :
    dirCountF (m + 1) (.dir n children :: rest) =
      1 + dirCountF m children + dirCountF (m + 1) rest := rfl

theorem fooChildren_spec (fuel : Nat) :
    ∀ (l : List FsEntry) (entries : List TreeEntry) (trees : List Tree),
    fooChildren fuel l = some (entries, trees) →
    entries.length = l.length ∧ trees.length = dirCountF fuel l := by
  induction fuel with
  | zero =>
      intro l entries trees h
      exact absurd h (by simp [fooChildren])
  | succ m ih =>
      intro l
      induction l with
      | nil =>
          intro entries trees h
          have h' : (([], []) : List TreeEntry × List Tree) = (entries, trees) := by
            simpa [fooChildren] using h
          rw [Prod.mk.injEq] at h'
          obtain ⟨he, ht⟩ := h'
          rw [← he, ← ht]
          simp [dirCountF]
      | cons e rest ihl =>
          intro entries trees h
          cases e with
          | file n k content =>
              rw [fooChildren_cons_file] at h
              cases hr : fooChildren (m + 1) rest with
              | none => rw [hr] at h; exact absurd h (by simp)
              | some pr =>
                  rw [hr] at h
                  simp only [Option.some_bind, Option.some_inj] at h
                  obtain ⟨hre, hrt⟩ := ihl pr.1 pr.2 (by rw [hr])
                  rw [Prod.mk.injEq] at h
                  obtain ⟨he, ht⟩ := h
                  rw [← he, ← ht, dirCountF_cons_file]
                  simp [hre, hrt]
          | dir n children =>
              cases children with
              | nil =>
                  exfalso
                  have : fooChildren (m + 1) (FsEntry.dir n [] :: rest) = none := by
                    show ((fooChildren (m + 1) rest).bind fun pr => none) = none
                    cases fooChildren (m + 1) rest <;> rfl
                  rw [this] at h
                  exact absurd h (by simp)
              | cons c cs =>
                  rw [fooChildren_cons_dir] at h
                  cases hr : fooChildren (m + 1) rest with
                  | none => rw [hr] at h; exact absurd h (by simp)
                  | some pr =>
                      rw [hr] at h
                      simp only [Option.some_bind] at h
                      cases hs : fooChildren m (c :: cs) with
                      | none => rw [hs] at h; exact absurd h (by simp)
                      | some ps =>
                          rw [hs] at h
                          simp only [Option.some_bind, Option.some_inj] at h
                          obtain ⟨hre, hrt⟩ := ihl pr.1 pr.2 (by rw [hr])
                          obtain ⟨-, hst⟩ := ih (c :: cs) ps.1 ps.2 (by rw [hs])
                          rw [Prod.mk.injEq] at h
                          obtain ⟨he, ht⟩ := h
                          rw [← he, ← ht, dirCountF_cons_dir]
                          simp only [List.length_cons, List.length_append,
                            List.length_nil, hre, hrt, hst]
                          refine ⟨trivial, ?_⟩
                          omega

set_option maxRecDepth 1000000 in
/-- C2 as stated fails on the code: `write_tree` never writes blobs.  For
the single-file input `a` (contents `b`), the recursion hashes the file's
bytes as a `Blob` but the write loop afterwards iterates only over the
`trees` vector, so no write carries the blob's encoded bytes and no write
is addressed at the blob's hash — the only write is the root tree. -/
theorem C2_counterexample_blob_not_written :
    (Tree.writeTree 1 [FsEntry.file [97] FileKind.regular [98]]).map
      (fun r => (r.2.map Prod.snd).contains (Blob.fmt ⟨[98]⟩) ||
                (r.2.map Prod.fst).contains (Object.hashOfBlob ⟨[98]⟩)) =
      some false := by
  decide

/-- C2 (amended): when `write_tree` returns (it panics on an empty root
listing or any empty subdirectory), the writes performed are exactly the
newly constructed `Tree` objects, in construction order: each is stored
under the hash of its own canonical encoding, each is a tree object (its
bytes start with `"tree "`; in particular no referenced `Blob` object is
written), there is exactly one write per processed directory including the
root, and the returned hash is the hash of the last written — top-level —
tree. -/
theorem C2_write_tree_writes_trees_only (fuel : Nat) (rootChildren : List FsEntry)
    (h : Bytes) (writes : List (Bytes × Bytes))
    (hrun : Tree.writeTree fuel rootChildren = some (h, writes)) :
    (∃ w, writes.getLast? = some w ∧ w.1 = h) ∧
    (∀ w ∈ writes, w.1 = hashWriteable w.2) ∧
    (∀ w ∈ writes, ∃ body, w.2 = asciiBytes "tree " ++ body) ∧
    writes.length = 1 + dirCountF fuel rootChildren := by
  cases rootChildren with
  | nil => exact absurd hrun (by simp [Tree.writeTree])
  | cons c cs =>
      rw [show Tree.writeTree fuel (c :: cs) =
            ((fooChildren fuel (c :: cs)).bind fun pe =>
              some (hashWriteable (Tree.fmt ⟨pe.1⟩),
                (pe.2 ++ [(⟨pe.1⟩ : Tree)]).map fun t => (hashWriteable t.fmt, t.fmt)))
          from rfl] at hrun
      cases hf : fooChildren fuel (c :: cs) with
      | none => rw [hf] at hrun; exact absurd hrun (by simp)
      | some pe =>
          rw [hf] at hrun
          simp only [Option.some_bind, Option.some_inj] at hrun
          rw [Prod.mk.injEq] at hrun
          obtain ⟨hh, hw⟩ := hrun
          obtain ⟨-, hlen⟩ := fooChildren_spec fuel (c :: cs) pe.1 pe.2 (by rw [hf])
          refine ⟨?_, ?_, ?_, ?_⟩
          · refine ⟨(hashWriteable (Tree.fmt ⟨pe.1⟩), Tree.fmt ⟨pe.1⟩), ?_, hh⟩
            rw [← hw, List.map_append]
            simp [List.getLast?_concat]
          · intro w hwmem
            rw [← hw] at hwmem
            obtain ⟨t, -, rfl⟩ := List.mem_map.mp hwmem
            rfl
          · intro w hwmem
            rw [← hw] at hwmem
            obtain ⟨t, -, rfl⟩ := List.mem_map.mp hwmem
            refine ⟨decimalBytes t.declaredSize ++ ([0] ++
              (t.entries.map TreeEntry.fmt).flatten), ?_⟩
            show Tree.fmt t = _
            unfold Tree.fmt
            simp [List.append_assoc]
          · rw [← hw]
            simp [hlen]
            omega

/-- The root hash of the single-file witness run (SHA-1 of the root tree's
encoding). -/
def c2H : Bytes :=
  [0, 38, 73, 112, 175, 211, 8, 56, 242, 163, 177, 115, 118, 224, 95, 140, 160, 59, 101, 139]

/-- The encoded root tree of the single-file witness run
(`tree 29\0100644 a\0` followed by the blob's 20-byte hash). -/
def c2B : Bytes :=
  [116, 114, 101, 101, 32, 50, 57, 0, 49, 48, 48, 54, 52, 52, 32, 97, 0,
   99, 216, 219, 212, 12, 35, 84, 46, 116, 6, 89, 167, 22, 138, 12, 227, 19, 142, 167, 72]

set_option maxRecDepth 1000000 in
/-- Witness for the amended C2 at the single-file input `a` (contents `b`):
the run succeeds with exactly one write — the root tree. -/
theorem C2_witness :
    ([(c2H, c2B)] : List (Bytes × Bytes)).length =
      1 + dirCountF 1 [FsEntry.file [97] FileKind.regular [98]] :=
  (C2_write_tree_writes_trees_only 1 [FsEntry.file [97] FileKind.regular [98]]
    c2H [(c2H, c2B)] (by decide)).2.2.2

/-! ## `HashObject::write` (`src/main.rs`) and C5 -/

/-- The two `std::io::ErrorKind`s the embedded code distinguishes. -/
inductive IoErrorKind where
  | alreadyExists
  | notFound
deriving DecidableEq, Repr

/-- `IoErrorExt::ignore` of `src/main.rs`: `or_else` that downgrades an
error of the given kind to `Ok(default)` and keeps any other error. -/
def ioIgnore {α : Type} (r : Except IoErrorKind α) (kind : IoErrorKind) (dflt : α) :
    Except IoErrorKind α :=
  match r with
  | .ok v => .ok v
  | .error e => if e = kind then .ok dflt else .error e

/-- `Hash::dir` of `src/hash.rs`: the first two hex characters — the shard
directory name under `.git/objects`. -/
def Hash.dir (h : Bytes) : List Char := (Hash.display h).take 2

/-- The file component of `Hash::object_path`: the remaining 38 hex
characters. -/
def Hash.objectFile (h : Bytes) : List Char := (Hash.display h).drop 2

/-- The object store's state: the shard directories created under
`.git/objects`, and the object files keyed by (shard directory, file
name).  (`.git/objects` itself exists from `init`.) -/
structure Store where
  dirs : List (List Char)
  files : List ((List Char × List Char) × Bytes)
deriving DecidableEq, Repr

/-- `fs::create_dir`: fails with `AlreadyExists` when the directory is
present (leaving the filesystem unchanged), else records it. -/
def createDir (d : List Char) (st : Store) : Except IoErrorKind Unit × Store :=
  if d ∈ st.dirs then (.error .alreadyExists, st)
  else (.ok (), ⟨d :: st.dirs, st.files⟩)

/-- Replace the binding of `k` (or append a fresh one): the effect of
`File::create` (truncate-or-create) followed by writing `v`. -/
def setFile (k : List Char × List Char) (v : Bytes) :
    List ((List Char × List Char) × Bytes) → List ((List Char × List Char) × Bytes)
  | [] => [(k, v)]
  | (k', v') :: t => if k' = k then (k, v) :: t else (k', v') :: setFile k v t

/-- The bytes stored for a key. -/
def getFile (k : List Char × List Char) :
    List ((List Char × List Char) × Bytes) → Option Bytes
  | [] => none
  | (k', v') :: t => if k' = k then some v' else getFile k t

/-- `File::create` + write: fails with `NotFound` when the parent shard
directory does not exist, otherwise truncates/creates the file with the
given bytes. -/
def fileCreateWrite (k : List Char × List Char) (v : Bytes) (st : Store) :
    Except IoErrorKind Store :=
  if k.1 ∈ st.dirs then .ok ⟨st.dirs, setFile k v st.files⟩ else .error .notFound

/-- `HashObject::write` of `src/main.rs`: compute the object's hash
(`Object::hash`, the `Display`-based one), `create_dir` the shard
directory with `AlreadyExists` ignored, then `File::create` the object
file and write the zlib-compressed `Writeable` encoding.  The compression
codec is an opaque reversible transform, passed as `compress`.  The
program only constructs `HashObject` around blobs (`Object::new_blob`). -/
def HashObject.write (compress : Bytes → Bytes) (b : Blob) (st : Store) :
    Except IoErrorKind Store :=
  let h := Object.hashOfBlob b
  let r := createDir (Hash.dir h) st
  match ioIgnore r.1 .alreadyExists () with
  | .error e => .error e
  | .ok _ => fileCreateWrite (Hash.dir h, Hash.objectFile h) (compress (Blob.fmt b)) r.2

theorem getFile_setFile (k : List Char × List Char) (v : Bytes)
    (l : List ((List Char × List Char) × Bytes)) :
    getFile k (setFile k v l) = some v := by
  induction l with
  | nil => simp [setFile, getFile]
  | cons p t ih =>
      obtain ⟨k', v'⟩ := p
      by_cases hk : k' = k
      · simp [setFile, getFile, hk]
      · simp only [setFile, getFile, if_neg hk]
        exact ih

theorem setFile_id (k : List Char × List Char) (v : Bytes)
    (l : List ((List Char × List Char) × Bytes)) (h : getFile k l = some v) :
    setFile k v l = l := by
  induction l with
  | nil => simp [getFile] at h
  | cons p t ih =>
      obtain ⟨k', v'⟩ := p
      by_cases hk : k' = k
      · simp only [getFile, if_pos hk] at h
        injection h with h
        simp [setFile, hk, h]
      · simp only [getFile, if_neg hk] at h
        simp [setFile, if_neg hk, ih h]

/-- C5: writing the same object a second time under the same hash succeeds
— the already-existing shard directory is downgraded by `ignore` and
`File::create` truncates — and the store is unchanged: the second write
returns exactly the state the first write produced, and the bytes stored
for that hash are the object's compressed encoding after either write. -/
theorem C5_second_write_idempotent (compress : Bytes → Bytes) (b : Blob) (st st' : Store)
    (h1 : HashObject.write compress b st = .ok st') :
    HashObject.write compress b st' = .ok st' ∧
    getFile (Hash.dir (Object.hashOfBlob b), Hash.objectFile (Object.hashOfBlob b))
      st'.files = some (compress (Blob.fmt b)) := by
  unfold HashObject.write at h1 ⊢
  dsimp only [] at h1 ⊢
  by_cases hd : Hash.dir (Object.hashOfBlob b) ∈ st.dirs
  · simp only [createDir, if_pos hd, ioIgnore, fileCreateWrite] at h1
    simp at h1
    subst h1
    refine ⟨?_, getFile_setFile _ _ _⟩
    simp [createDir, ioIgnore, fileCreateWrite, hd, setFile_id, getFile_setFile]
  · simp only [createDir, if_neg hd, ioIgnore, fileCreateWrite] at h1
    simp at h1
    subst h1
    refine ⟨?_, getFile_setFile _ _ _⟩
    simp [createDir, ioIgnore, fileCreateWrite, setFile_id, getFile_setFile]

set_option maxRecDepth 1000000 in
/-- Witness for C5: after writing the empty blob into the empty store
(shard `e6`, file `9de29b…`, the well-known hash of git's empty blob),
writing it again succeeds and returns the very same store. -/
theorem C5_witness :
    HashObject.write id ⟨[]⟩
      ⟨[String.toList "e6"],
       [((String.toList "e6",
          String.toList "9de29bb2d1d6434b8b29ae775ad8c2e48c5391"),
         [98, 108, 111, 98, 32, 48, 0])]⟩ =
    .ok ⟨[String.toList "e6"],
       [((String.toList "e6",
          String.toList "9de29bb2d1d6434b8b29ae775ad8c2e48c5391"),
         [98, 108, 111, 98, 32, 48, 0])]⟩ :=
  (C5_second_write_idempotent id ⟨[]⟩ ⟨[], []⟩
    ⟨[String.toList "e6"],
     [((String.toList "e6",
        String.toList "9de29bb2d1d6434b8b29ae775ad8c2e48c5391"),
       [98, 108, 111, 98, 32, 48, 0])]⟩ (by decide)).1
end GitRs
